import Mathlib

/-!
Verification of the localized IPDG reduced-basis reductor
(`pymor/reductors/coercive_ipl3dg.py`).

The Python module is shallowly embedded: block operators become functions
`Nat → Nat → Option α` (an absent block, `None` in the numpy object array,
becomes `none`), the domain-decomposition grid becomes a pair of a subdomain
count and a `neighbors : Nat → List Nat` adjacency query, parameter-dependent
numerics (solves, Riesz representatives) are abstracted as function
parameters, and the mutable reductor object becomes a state record with
explicit state-passing.  All definitions are executable.
-/

namespace IPL3DG

/-! ### Generic helpers (sorting and substring tests)

`np.sort`/`np.unique` are modelled by an insertion sort over deduplicated
lists; Python's substring test `p in s` is modelled by `strContains`. -/

/-- Insert into an ascending list (helper for the model of `np.sort`). -/
def insertAsc (a : Nat) : List Nat → List Nat
  | [] => [a]
  | b :: bs => if a ≤ b then a :: b :: bs else b :: insertAsc a bs

/-- Sort a list of naturals ascending (model of `np.sort`). -/
def sortAsc (l : List Nat) : List Nat := l.foldr insertAsc []

/-- Does the pattern occur at the head of the string? -/
def subAt : List Char → List Char → Bool
  | _, [] => true
  | [], _ :: _ => false
  | a :: s, b :: p => a = b && subAt s p

/-- Does the pattern occur anywhere in the string? -/
def hasSub : List Char → List Char → Bool
  | s, p => subAt s p || match s with
    | [] => false
    | _ :: s₂ => hasSub s₂ p

/-- Python's substring test `pat in s`. -/
def strContains (s pat : String) : Bool := hasSub s.toList pat.toList

/-! ### Index mappings of `construct_local_model`

`local_to_global_mapping(i) = local_elements[i]` (a raw list access, so we
return an `Option`), and `global_to_local_mapping(i)` scans `local_elements`
for the first index holding `i`, returning `-1` when absent. -/

/-- `local_to_global_mapping`: `local_elements[i]`. -/
def localToGlobal (localElements : List Nat) (i : Nat) : Option Nat :=
  localElements.get? i

/-- The `enumerate` loop of `global_to_local_mapping`, carrying the running
index `k`. -/
def globalToLocalAux (g : Nat) : Nat → List Nat → Int
  | _, [] => -1
  | k, j :: rest => if j = g then (k : Int) else globalToLocalAux g (k + 1) rest

/-- `global_to_local_mapping`: first index of `g` in `local_elements`,
`-1` when `g` does not occur. -/
def globalToLocal (localElements : List Nat) (g : Nat) : Int :=
  globalToLocalAux g 0 localElements

/-! ### `construct_local_model`

The double loop fills the `S_patch × S_patch` object array `patch_op`.
Iteration `ii` of the outer loop writes only into row `ii`
(`patch_op[ii][ii]` and `patch_op[ii][jj]`), so the rows are independent and
the patch operator is modelled row by row: the row starts with the global
diagonal block at the local diagonal position (everything else `None`, as in
`np.empty(..., dtype=object)`), then the loop over `neighbors(I)` overwrites
position `jj = global_to_local(J)` with the global coupling block whenever
`jj >= 0`; couplings with `jj < 0` are skipped (the commented-out "fake
dirichlet contribution" branch is `pass`). -/

/-- One iteration of the `for J in neighbors(I)` loop: write the global
coupling block at local column `jj = global_to_local(J)` when `jj >= 0`,
otherwise leave the row unchanged. -/
def patchRowStep (blocks : Nat → Nat → Option α) (localElements : List Nat)
    (I : Nat) (row : Nat → Option α) (J : Nat) : Nat → Option α :=
  let jj := globalToLocal localElements J
  if jj ≥ 0 then (fun b => if b = jj.toNat then blocks I J else row b) else row

/-- Row `ii` (owned by global element `I`) of the patch operator. -/
def patchOpRow (blocks : Nat → Nat → Option α) (neighbors : Nat → List Nat)
    (localElements : List Nat) (ii I : Nat) : Nat → Option α :=
  (neighbors I).foldl (patchRowStep blocks localElements I)
    (fun b => if b = ii then blocks I I else none)

/-- Entry `(ii, jj)` of the patch block operator built by
`construct_local_model`. -/
def constructLocalOp (blocks : Nat → Nat → Option α) (neighbors : Nat → List Nat)
    (localElements : List Nat) (ii jj : Nat) : Option α :=
  match localToGlobal localElements ii with
  | none => none
  | some I => patchOpRow blocks neighbors localElements ii I jj

/-- Entry `ii` of the patch right-hand side: `blocks_rhs[I, 0]`. -/
def constructLocalRhs (rhsBlocks : Nat → β) (localElements : List Nat) (ii : Nat) :
    Option β :=
  (localToGlobal localElements ii).map rhsBlocks

/-! ### Lemmas on the index mappings -/

/-! ### Lemmas on the patch-operator fill loop -/

/-! ### `construct_element_patches`

`nh` starts as the Python set `{ss} ∪ neighbors(ss)`; the double loop
`for nn in neighbors(ss): for nnn in neighbors(nn)` examines the candidates
in the order of the concatenated neighbor lists and adds a candidate exactly
when it is not yet in `nh` and exactly two of its distinct neighbors already
lie in `nh`.  The set is modelled by a membership-equivalent list (all
queries on `nh` are membership tests and a distinct-intersection count, both
insensitive to duplicates and order). -/

/-- One examination of a candidate `nnn` by the inner loop body:
`len(set(neighbors(nnn)).intersection(nh)) == 2` is the number of distinct
neighbors of the candidate already in `nh`. -/
def patchStep (neighbors : Nat → List Nat) (nh : List Nat) (nnn : Nat) : List Nat :=
  if nnn ∉ nh ∧ ((neighbors nnn).dedup.filter (· ∈ nh)).length = 2
  then nh ++ [nnn] else nh

/-- The candidates `nnn` examined by the double loop, in examination order. -/
def examinedCandidates (neighbors : Nat → List Nat) (ss : Nat) : List Nat :=
  (neighbors ss).flatMap neighbors

/-- The element patch of subdomain `ss` built by `construct_element_patches`. -/
def elementPatch (neighbors : Nat → List Nat) (ss : Nat) : List Nat :=
  (examinedCandidates neighbors ss).foldl (patchStep neighbors) (ss :: neighbors ss)

/-- `construct_element_patches`: one element patch per subdomain. -/
def constructElementPatches (numSubdomains : Nat) (neighbors : Nat → List Nat) :
    List (List Nat) :=
  (List.range numSubdomains).map (elementPatch neighbors)

/-- The state of `nh` at the moment the `k`-th candidate is examined. -/
def patchStateAt (neighbors : Nat → List Nat) (ss k : Nat) : List Nat :=
  ((examinedCandidates neighbors ss).take k).foldl (patchStep neighbors)
    (ss :: neighbors ss)

/-! ### `construct_inner_node_patches` and `add_element_neighbors` -/

/-- `int(np.sqrt(S))`: the largest `k` with `k * k ≤ S`, computed by a scan
so that it evaluates inside the kernel. -/
def floorSqrt (S : Nat) : Nat :=
  (List.range (S + 1)).foldl (fun acc k => if k * k ≤ S then k else acc) 0

/-- `construct_inner_node_patches`: `domain_ids = np.arange(S).reshape(n, n)`
with `n = int(np.sqrt(S))` is row-major, so `domain_ids[i, j] = i * n + j`;
for every inner grid node `(i, j)` the patch keyed by
`i * domain_ids.shape[1] + j` collects the four subdomains meeting there. -/
def constructInnerNodePatches (numSubdomains : Nat) : List (Nat × List Nat) :=
  let n := floorSqrt numSubdomains
  (List.range (n - 1)).flatMap (fun i =>
    (List.range (n - 1)).map (fun j =>
      (i * n + j,
        [i * n + j, i * n + (j + 1), (i + 1) * n + j, (i + 1) * n + (j + 1)])))

/-- `np.sort(np.unique(...))`: the distinct values in ascending order. -/
def sortedUnique (l : List Nat) : List Nat :=
  List.insertionSort (· ≤ ·) l.dedup

/-- `add_element_neighbors`: for each domain, the concatenation of the
neighbor lists of its elements (`elements_and_all_neighbors` collects only
`dd_grid.neighbors(el)`, never `el` itself), deduplicated and sorted. -/
def addElementNeighbors (neighbors : Nat → List Nat)
    (domains : List (Nat × List Nat)) : List (Nat × List Nat) :=
  domains.map (fun d => (d.1, sortedUnique (d.2.flatMap neighbors)))

/-! ### `remove_irrelevant_coupling_from_patch_operator`

Diagonal patch blocks are `LincombOperator`s; each is modelled as the list
of its named terms zipped with their coefficients
(`zip(blocks[i][j].operators, blocks[i][j].coefficients)`).  The retained
condition is `'volume' in op.name or 'boundary' in op.name or
np.sum(string in op.name for string in strings)`; `np.sum` on a generator
falls back to the Python builtin sum of booleans, so the third disjunct is
truthy exactly when at least one pair string is a substring of the name. -/

/-- The canonical pair string: `f'{I}_{J}'` when `I < J`, else `f'{J}_{I}'`. -/
def pairString (I J : Nat) : String :=
  if I < J then Nat.repr I ++ "_" ++ Nat.repr J
  else Nat.repr J ++ "_" ++ Nat.repr I

/-- `element_patch = [mapping_to_global(l) for l in np.arange(subspaces)]`
with `subspaces` the number of local blocks. -/
def patchGlobalElements (elements : List Nat) : List Nat :=
  (List.range elements.length).map (fun l => (localToGlobal elements l).getD 0)

/-- The list `strings` of pair strings of `I` against the patch. -/
def couplingStrings (I : Nat) (elementPatch : List Nat) : List String :=
  elementPatch.map (pairString I)

/-- The retention test on a term name. -/
def keepTerm (strings : List String) (name : String) : Bool :=
  strContains name "volume" || strContains name "boundary" ||
    strings.any (fun s => strContains name s)

/-- The `for op, coef in zip(...)` loop collecting `local_ops, local_coefs`. -/
def filterTerms (strings : List String) : List (String × γ) → List (String × γ)
  | [] => []
  | t :: rest =>
      if keepTerm strings t.1 then t :: filterTerms strings rest
      else filterTerms strings rest

/-- `remove_irrelevant_coupling_from_patch_operator`, entry `(i, j)` of the
returned block operator: off-diagonal blocks are copied, a present diagonal
block keeps exactly the terms passing `keepTerm`. -/
def removeIrrelevantCoupling (blocks : Nat → Nat → Option (List (String × γ)))
    (elements : List Nat) (i j : Nat) : Option (List (String × γ)) :=
  if i ≠ j then blocks i j
  else
    match blocks i i with
    | none => none
    | some terms =>
        let I := (localToGlobal elements i).getD 0
        some (filterTerms (couplingStrings I (patchGlobalElements elements)) terms)

/-! ### `project_block_operator` / `project_block_rhs`

The operator kinds recognized by `_project_block_operator` are
`IdentityOperator`, `BlockOperator`, and anything else (which raises
`NotImplementedError`, modelled as `Except.error`).  The external `project`
primitive (pymor's generic projection, not part of this repository) is
abstracted as function parameters `projLeaf` (block onto
`(range_basis, source_basis)`), `projIdent` (identity onto a basis pair),
`projVec` and `projCol` (right-hand-side rows onto a basis, no left basis).
A top-level `LincombOperator` is handled by the wrapper, which projects
every term and reuses the coefficient functionals. -/

/-- Block-operator kinds dispatched by `_project_block_operator`. -/
inductive BlockOpKind (L : Type) where
  | identityOp : BlockOpKind L
  | blockOp : List (List (Option L)) → BlockOpKind L
  | other : BlockOpKind L

/-- Top-level operator handed to `project_block_operator`: either a
`LincombOperator` over blockwise terms or a single blockwise operator. -/
inductive TopOp (L C : Type) where
  | lincomb : List (BlockOpKind L) → List C → TopOp L C
  | plain : BlockOpKind L → TopOp L C

/-- Result of projection, mirroring the shape of the input. -/
inductive TopProjected (P C : Type) where
  | lincomb : List (List (List (Option P))) → List C → TopProjected P C
  | plain : List (List (Option P)) → TopProjected P C

/-- `operator.blocks[I][J]` of a `BlockOperator` (absent entries are `None`). -/
def blockEntry (blocks : List (List (Option L))) (I J : Nat) : Option L :=
  (((blocks.get? I).getD []).get? J).getD none

/-- `_project_block_operator`: identity becomes a block-diagonal projected
identity over each subdomain's own basis; a block operator is projected
entrywise onto `(range_bases[I], source_bases[J])`, absent blocks staying
absent; any other kind raises `NotImplementedError`. -/
def projectOneBlockOperator (projLeaf : L → B → B → P) (projIdent : B → P)
    (rangeBases sourceBases : List B) :
    BlockOpKind L → Except Unit (List (List (Option P)))
  | .identityOp =>
      .ok ((List.range rangeBases.length).map (fun I =>
        (List.range rangeBases.length).map (fun J =>
          if I = J then (rangeBases.get? I).map projIdent else none)))
  | .blockOp blocks =>
      .ok ((List.range rangeBases.length).map (fun I =>
        (List.range sourceBases.length).map (fun J =>
          match blockEntry blocks I J, rangeBases.get? I, sourceBases.get? J with
          | some op, some rI, some sJ => some (projLeaf op rI sJ)
          | _, _, _ => none)))
  | .other => .error ()

/-- The `for op in operator.operators` loop collecting projected terms; the
first `NotImplementedError` propagates. -/
def mapExcept (f : α → Except Unit β) : List α → Except Unit (List β)
  | [] => .ok []
  | a :: as => do
      let b ← f a
      let bs ← mapExcept f as
      pure (b :: bs)

/-- `project_block_operator`: a `LincombOperator` is rebuilt from the
projected terms with the identical coefficients; anything else is projected
directly. -/
def projectBlockOperator (projLeaf : L → B → B → P) (projIdent : B → P)
    (rangeBases sourceBases : List B) : TopOp L C → Except Unit (TopProjected P C)
  | .lincomb ops coefs =>
      (mapExcept (projectOneBlockOperator projLeaf projIdent rangeBases sourceBases)
        ops).map (fun ps => .lincomb ps coefs)
  | .plain op =>
      (projectOneBlockOperator projLeaf projIdent rangeBases sourceBases op).map
        .plain

/-- Right-hand-side kinds dispatched by `_project_block_rhs`:
`VectorOperator` (rows `rhs.array._blocks`), `BlockColumnOperator`
(rows `rhs.blocks[:, 0]`), anything else raises. -/
inductive RhsKind (V : Type) where
  | vectorOp : List V → RhsKind V
  | blockColumn : List V → RhsKind V
  | other : RhsKind V

/-- Top-level right-hand side handed to `project_block_rhs`. -/
inductive TopRhs (V C : Type) where
  | lincomb : List (RhsKind V) → List C → TopRhs V C
  | plain : RhsKind V → TopRhs V C

/-- Result of right-hand-side projection. -/
inductive TopRhsProjected (P C : Type) where
  | lincomb : List (List (Option P)) → List C → TopRhsProjected P C
  | plain : List (Option P) → TopRhsProjected P C

/-- `_project_block_rhs`: each subdomain row is projected onto its own basis
only (`project(…, range_bases[I], None)`). -/
def projectOneBlockRhs (projVec projCol : V → B → P) (rangeBases : List B) :
    RhsKind V → Except Unit (List (Option P))
  | .vectorOp blocks =>
      .ok ((List.range rangeBases.length).map (fun I =>
        match blocks.get? I, rangeBases.get? I with
        | some v, some b => some (projVec v b)
        | _, _ => none))
  | .blockColumn blocks =>
      .ok ((List.range rangeBases.length).map (fun I =>
        match blocks.get? I, rangeBases.get? I with
        | some v, some b => some (projCol v b)
        | _, _ => none))
  | .other => .error ()

/-- `project_block_rhs`. -/
def projectBlockRhs (projVec projCol : V → B → P) (rangeBases : List B) :
    TopRhs V C → Except Unit (TopRhsProjected P C)
  | .lincomb ops coefs =>
      (mapExcept (projectOneBlockRhs projVec projCol rangeBases) ops).map
        (fun ps => .lincomb ps coefs)
  | .plain op =>
      (projectOneBlockRhs projVec projCol rangeBases op).map .plain

/-! ### The reductor state machine: `reduce`, `add_local_solutions`,
`enrich_locally`

The mutable attributes of a `CoerciveIPLD3GRBReductor` instance become a
state record.  `_last_rom_dims` is only ever read after `_last_rom` has been
set (the `or` short-circuits), so it is stored as a plain `Nat` starting at
`0`.  The external basis-extension primitive `extend_basis` (pymor, not part
of this repository) may fail on near-linear dependence: it is modelled as a
function returning `Option` (`none` = the raised exception).  The numerics of
the correction solve (lines between the cache check and `add_local_solutions`
perform no attribute assignment: they only read state and build local
objects) are abstracted as a read-only function `solvePatch`, plus `blockOf`
extracting the block of the patch solution at the local index of `I`. -/

/-- State of a reductor instance.  `patchMappings` stores the element list of
each patch; the `local_to_global`/`global_to_local` closures are
`localToGlobal`/`globalToLocal` applied to it. -/
structure ReductorState (V R M : Type) where
  localBases : List (List V)
  lastRom : Option R
  lastRomDims : Nat
  reducedLocalBases : List (List V)
  patchModels : List M
  patchMappings : List (List Nat)
  estimatorDomains : List (Nat × List Nat)
  log : List String

/-- `basis_length()`: the per-subdomain local basis lengths. -/
def basisLength (st : ReductorState V R M) : List Nat :=
  st.localBases.map List.length

/-- The rebuild branch of `reduce`: build the ROM (`self._reduce()`), record
the current total basis length, and deep-copy the live bases into the
reduced local bases snapshot. -/
def rebuildRom (build : ReductorState V R M → R) (st : ReductorState V R M) :
    R × ReductorState V R M :=
  let rom := build st
  (rom, { st with lastRom := some rom,
                  lastRomDims := (basisLength st).sum,
                  reducedLocalBases := st.localBases })

/-- The `dims == None` path of `reduce`: rebuild iff
`self._last_rom is None or sum(self.basis_length()) > self._last_rom_dims`
(the short-circuiting `or` becomes a nested match), else return the cached
ROM with the state untouched. -/
def reduceNone (build : ReductorState V R M → R) (st : ReductorState V R M) :
    R × ReductorState V R M :=
  match st.lastRom with
  | none => rebuildRom build st
  | some rom =>
      if (basisLength st).sum > st.lastRomDims then rebuildRom build st
      else (rom, st)

/-- `reduce(dims)`: the `assert dims is None` failure is an error. -/
def reduce (build : ReductorState V R M → R) (st : ReductorState V R M) :
    Option Nat → Except String (R × ReductorState V R M)
  | some _ => .error "we cannot yet reduce to subbases"
  | none => .ok (reduceNone build st)

/-- `add_local_solutions(I, u)`: try the orthogonalized extension of
`local_bases[I]`; a failure is absorbed and only logged. -/
def addLocalSolutions (extendBasis : List V → V → Option (List V)) (I : Nat)
    (u : V) (st : ReductorState V R M) : ReductorState V R M :=
  match extendBasis (st.localBases.getD I []) u with
  | some newBasis => { st with localBases := st.localBases.set I newBasis }
  | none => { st with log := st.log ++ ["Extension failed"] }

/-- The state after the `if self._last_rom is None: self.reduce()` preamble
of `enrich_locally`. -/
def enrichPre (build : ReductorState V R M → R) (st : ReductorState V R M) :
    ReductorState V R M :=
  if st.lastRom.isNone then (reduceNone build st).2 else st

/-- The vector handed to `add_local_solutions`:
`phi.block(mapping_to_local(I))`. -/
def enrichVector (build : ReductorState V R M → R)
    (solvePatch : ReductorState V R M → Nat → μ → W) (blockOf : W → Int → V)
    (I : Nat) (mu : μ) (st : ReductorState V R M) : V :=
  blockOf (solvePatch (enrichPre build st) I mu)
    (globalToLocal ((enrichPre build st).patchMappings.getD I []) I)

/-- `enrich_locally(I, mu)`: ensure a ROM exists, solve the corrected patch
problem (read-only numerics `solvePatch`), extend subdomain `I`'s basis with
the extracted block, return `phi`. -/
def enrichLocally (extendBasis : List V → V → Option (List V))
    (build : ReductorState V R M → R)
    (solvePatch : ReductorState V R M → Nat → μ → W) (blockOf : W → Int → V)
    (I : Nat) (mu : μ) (st : ReductorState V R M) :
    W × ReductorState V R M :=
  (solvePatch (enrichPre build st) I mu,
    addLocalSolutions extendBasis I
      (enrichVector build solvePatch blockOf I mu st) (enrichPre build st))

/-! ### `EllipticIPLRBEstimator.estimate_error`

The residual numerics are abstracted per estimator domain: `resNorm d el`
is `res.block(el).norm()` for the `d`-th domain of the zipped iteration
(the local block index `el` is an `Int`, the value of the domain's
`global_to_local` mapping).  `estimator_domains` and `inner_node_patches`
are association lists in dict insertion order; `construct_inner_node_patches`
inserts strictly increasing keys, so `sorted(keys)` in the distribution loop
traverses them in list order (hypothesis `hkeys` below). -/

/-- `np.linalg.norm`: the Euclidean norm of a vector. -/
noncomputable def l2norm (l : List ℝ) : ℝ := Real.sqrt ((l.map (fun x => x ^ 2)).sum)

/-- The indicator of the `d`-th estimator domain: the Euclidean norm of the
per-element residual norms, the elements being the node patch's inner
elements sent through the domain's `global_to_local` mapping. -/
noncomputable def iplIndicator (resNorm : Nat → Int → ℝ) (eds inner : List (Nat × List Nat))
    (d : Nat) : ℝ :=
  l2norm ((((inner.get? d).map Prod.snd).getD []).map
    (fun el => resNorm d (globalToLocal (((eds.get? d).map Prod.snd).getD []) el)))

/-- The `indicators` list of the main loop (`zip` truncates to the shorter
of the zipped sequences). -/
noncomputable def iplIndicators (resNorm : Nat → Int → ℝ)
    (eds inner : List (Nat × List Nat)) : List ℝ :=
  (List.range (min eds.length inner.length)).map (iplIndicator resNorm eds inner)

/-- `ests[sd] += ind**2` over one estimator domain. -/
noncomputable def distStep (ind : ℝ) (ests : Nat → ℝ) (sd : Nat) : Nat → ℝ :=
  fun x => if x = sd then ests x + ind ^ 2 else ests x

/-- The distribution loop: `ests = np.zeros(S)`, then for each
`(associated_domain, ind)` in `zip(sorted(keys), indicators)` add `ind**2`
to every subdomain of `estimator_domains[associated_domain]`. -/
noncomputable def distributeEsts (eds : List (Nat × List Nat)) (indicators : List ℝ) :
    Nat → ℝ :=
  ((List.insertionSort (· ≤ ·) (eds.map Prod.fst)).zip indicators).foldl
    (fun ests p => ((eds.lookup p.1).getD []).foldl (distStep p.2) ests)
    (fun _ => 0)

/-- `EllipticIPLRBEstimator.estimate_error`: returns
`(np.linalg.norm(indicators), indicators, np.sqrt(sum(ests)))` — note the
third component is `np.sqrt` of the Python builtin `sum` of the
accumulated array, a scalar. -/
noncomputable def estimateError (resNorm : Nat → Int → ℝ) (S : Nat)
    (eds inner : List (Nat × List Nat)) : ℝ × List ℝ × ℝ :=
  let indicators := iplIndicators resNorm eds inner
  let ests := distributeEsts eds indicators
  (l2norm indicators, indicators,
    Real.sqrt (((List.range S).map ests).sum))

/-! ### Theorems -/

theorem globalToLocalAux_of_not_mem (g : Nat) (l : List Nat) (hg : g ∉ l) :
    ∀ k, globalToLocalAux g k l = -1 := by
  induction l with
  | nil => intro k; rfl
  | cons j rest ih =>
    intro k
    have hj : j ≠ g := fun h => hg (h ▸ List.mem_cons_self j rest)
    have hrest : g ∉ rest := fun h => hg (List.mem_cons_of_mem _ h)
    simp only [globalToLocalAux, if_neg hj]
    exact ih hrest (k + 1)

theorem globalToLocalAux_lower_bound (g : Nat) (l : List Nat) :
    ∀ k, globalToLocalAux g k l = -1 ∨ (k : Int) ≤ globalToLocalAux g k l := by
  induction l with
  | nil => intro k; left; rfl
  | cons j rest ih =>
    intro k
    by_cases hj : j = g
    · right; simp [globalToLocalAux, hj]
    · simp only [globalToLocalAux, if_neg hj]
      rcases ih (k + 1) with h | h
      · left; exact h
      · right; omega

theorem globalToLocalAux_get (g : Nat) (l : List Nat) :
    ∀ k n, globalToLocalAux g k l = ((k + n : Nat) : Int) → l.get? n = some g := by
  induction l with
  | nil =>
    intro k n h
    simp only [globalToLocalAux] at h
    omega
  | cons j rest ih =>
    intro k n h
    by_cases hj : j = g
    · simp only [globalToLocalAux, if_pos hj] at h
      have : n = 0 := by omega
      subst this
      simp [hj]
    · simp only [globalToLocalAux, if_neg hj] at h
      cases n with
      | zero =>
        exfalso
        rcases globalToLocalAux_lower_bound g rest (k + 1) with hb | hb <;> omega
      | succ m =>
        have := ih (k + 1) m (by rw [h]; push_cast; ring)
        simpa using this

theorem globalToLocal_of_not_mem (l : List Nat) (g : Nat) (hg : g ∉ l) :
    globalToLocal l g = -1 :=
  globalToLocalAux_of_not_mem g l hg 0

theorem globalToLocalAux_of_mem (g : Nat) (l : List Nat) (hg : g ∈ l) :
    ∀ k, ∃ n, globalToLocalAux g k l = ((k + n : Nat) : Int) := by
  induction l with
  | nil => cases hg
  | cons j rest ih =>
    intro k
    by_cases hj : j = g
    · exact ⟨0, by simp [globalToLocalAux, hj]⟩
    · have hmem : g ∈ rest := by
        rcases List.mem_cons.mp hg with h | h
        · exact absurd h.symm hj
        · exact h
      rcases ih hmem (k + 1) with ⟨n, hn⟩
      exact ⟨n + 1, by simp only [globalToLocalAux, if_neg hj, hn]; push_cast; ring⟩

theorem globalToLocal_of_mem (l : List Nat) (g : Nat) (hg : g ∈ l) :
    ∃ n : Nat, globalToLocal l g = (n : Int) := by
  rcases globalToLocalAux_of_mem g l hg 0 with ⟨n, hn⟩
  exact ⟨n, by simpa using hn⟩

theorem globalToLocal_get (l : List Nat) (g n : Nat)
    (h : globalToLocal l g = (n : Int)) : l.get? n = some g :=
  globalToLocalAux_get g l 0 n (by simpa using h)

theorem globalToLocalAux_nodup (l : List Nat) (hl : l.Nodup) :
    ∀ i (hi : i < l.length) k,
      globalToLocalAux (l.get ⟨i, hi⟩) k l = ((k + i : Nat) : Int) := by
  induction l with
  | nil => intro i hi; cases hi
  | cons j rest ih =>
    intro i hi k
    cases i with
    | zero => simp [globalToLocalAux]
    | succ m =>
      have hj : j ≠ (j :: rest).get ⟨m + 1, hi⟩ := by
        have hmem : (j :: rest).get ⟨m + 1, hi⟩ ∈ rest := by
          simpa using List.get_mem rest ⟨m, by simpa using hi⟩
        exact fun h => (List.nodup_cons.mp hl).1 (h ▸ hmem)
      have := ih (List.nodup_cons.mp hl).2 m (by simpa using hi) (k + 1)
      simp only [globalToLocalAux, if_neg hj]
      rw [show (j :: rest).get ⟨m + 1, hi⟩ = rest.get ⟨m, by simpa using hi⟩ from rfl]
      rw [this]
      push_cast
      ring

theorem globalToLocal_nodup (l : List Nat) (hl : l.Nodup) (i : Nat) (hi : i < l.length) :
    globalToLocal l (l.get ⟨i, hi⟩) = (i : Int) := by
  simpa using globalToLocalAux_nodup l hl i hi 0

/-- **C4.** For every patch built by `construct_local_model` (element lists are
produced from Python sets or `np.unique`, hence duplicate-free), the two index
mappings are mutually inverse on the patch: `global_to_local (local_to_global i)`
returns `i` for every local index `i < S_patch`; `local_to_global` applied to
`global_to_local I` recovers `I` for every global index `I` in the element
list; and `global_to_local J = -1` for every `J` outside the element list. -/
theorem c4_patch_mappings_mutually_inverse
    (elements : List Nat) (hnd : elements.Nodup) :
    (∀ i (hi : i < elements.length),
        globalToLocal elements (elements.get ⟨i, hi⟩) = (i : Int)) ∧
    (∀ I, I ∈ elements →
        ∃ n : Nat, globalToLocal elements I = (n : Int) ∧
          localToGlobal elements n = some I) ∧
    (∀ J, J ∉ elements → globalToLocal elements J = -1) := by
  refine ⟨fun i hi => globalToLocal_nodup elements hnd i hi, fun I hI => ?_,
    fun J hJ => globalToLocal_of_not_mem elements J hJ⟩
  rcases globalToLocal_of_mem elements I hI with ⟨n, hn⟩
  exact ⟨n, hn, globalToLocal_get elements I n hn⟩

theorem patchRowStep_apply (blocks : Nat → Nat → Option α) (elements : List Nat)
    (I : Nat) (row : Nat → Option α) (J b : Nat) :
    patchRowStep blocks elements I row J b =
      if globalToLocal elements J = (b : Int) then blocks I J else row b := by
  unfold patchRowStep
  by_cases h : globalToLocal elements J ≥ 0
  · simp only [if_pos h]
    by_cases h2 : globalToLocal elements J = (b : Int)
    · have hb : b = (globalToLocal elements J).toNat := by omega
      simp [if_pos h2, ← hb, hb.symm]
    · have hb : b ≠ (globalToLocal elements J).toNat := by omega
      simp [if_neg h2, if_neg hb]
  · have h2 : globalToLocal elements J ≠ (b : Int) := by omega
    simp [if_neg h, if_neg h2]

theorem patchOpRow_foldl_no_write (blocks : Nat → Nat → Option α)
    (elements : List Nat) (I : Nat) (ns : List Nat) :
    ∀ (row : Nat → Option α) (b : Nat),
      (∀ J ∈ ns, globalToLocal elements J ≠ (b : Int)) →
      ns.foldl (patchRowStep blocks elements I) row b = row b := by
  induction ns with
  | nil => intro row b _; rfl
  | cons J ns ih =>
    intro row b h
    simp only [List.foldl_cons]
    rw [ih _ b (fun K hK => h K (List.mem_cons_of_mem _ hK))]
    rw [patchRowStep_apply]
    exact if_neg (h J (List.mem_cons_self J ns))

theorem patchOpRow_foldl_write (blocks : Nat → Nat → Option α)
    (elements : List Nat) (I : Nat) (ns : List Nat) (v : Option α) :
    ∀ (row : Nat → Option α) (b : Nat),
      (∀ J ∈ ns, globalToLocal elements J = (b : Int) → blocks I J = v) →
      (∃ J ∈ ns, globalToLocal elements J = (b : Int)) →
      ns.foldl (patchRowStep blocks elements I) row b = v := by
  induction ns with
  | nil => intro row b _ hex; rcases hex with ⟨J, hJ, _⟩; cases hJ
  | cons J ns ih =>
    intro row b hall hex
    simp only [List.foldl_cons]
    by_cases hrest : ∃ K ∈ ns, globalToLocal elements K = (b : Int)
    · exact ih _ b (fun K hK => hall K (List.mem_cons_of_mem _ hK)) hrest
    · have hJ : globalToLocal elements J = (b : Int) := by
        rcases hex with ⟨K, hK, hKb⟩
        rcases List.mem_cons.mp hK with h | h
        · exact h ▸ hKb
        · exact absurd ⟨K, h, hKb⟩ hrest
      rw [patchOpRow_foldl_no_write blocks elements I ns _ b
        (fun K hK hKb => hrest ⟨K, hK, hKb⟩)]
      rw [patchRowStep_apply, if_pos hJ]
      exact hall J (List.mem_cons_self J ns) hJ

theorem constructLocalOp_eq (blocks : Nat → Nat → Option α)
    (neighbors : Nat → List Nat) (elements : List Nat) (ii jj I : Nat)
    (h : localToGlobal elements ii = some I) :
    constructLocalOp blocks neighbors elements ii jj =
      patchOpRow blocks neighbors elements ii I jj := by
  unfold constructLocalOp
  rw [h]

/-- If `global_to_local` answers `jj` for `J` then `elements[jj] = J`. -/
theorem globalToLocal_get_eq (elements : List Nat) (J jj : Nat)
    (hjj : jj < elements.length)
    (h : globalToLocal elements J = (jj : Int)) :
    elements.get ⟨jj, hjj⟩ = J := by
  have := globalToLocal_get elements J jj h
  rw [List.get?_eq_get hjj] at this
  exact Option.some.inj this

/-- **C3.** `construct_local_model` on a duplicate-free element list: the
diagonal patch block `(ii, ii)` is exactly the global diagonal block of
`I = elements[ii]`; the off-diagonal patch block `(ii, jj)` is the global
coupling block `(I, J)` precisely when `J = elements[jj]` is a neighbor of
`I` (`J` being in the element list by construction), and is absent (`none`)
otherwise.  In particular a coupling of `I` to a neighbor outside the element
list appears in no entry of the patch operator: every diagonal entry is the
unmodified global diagonal block and every off-diagonal entry refers only to
in-patch columns. -/
theorem c3_construct_local_model_blocks (blocks : Nat → Nat → Option α)
    (neighbors : Nat → List Nat) (elements : List Nat) (hnd : elements.Nodup) :
    (∀ ii (hii : ii < elements.length),
        constructLocalOp blocks neighbors elements ii ii =
          blocks (elements.get ⟨ii, hii⟩) (elements.get ⟨ii, hii⟩)) ∧
    (∀ ii jj (hii : ii < elements.length) (hjj : jj < elements.length),
        ii ≠ jj →
        constructLocalOp blocks neighbors elements ii jj =
          if elements.get ⟨jj, hjj⟩ ∈ neighbors (elements.get ⟨ii, hii⟩)
          then blocks (elements.get ⟨ii, hii⟩) (elements.get ⟨jj, hjj⟩)
          else none) := by
  have hloc : ∀ ii (hii : ii < elements.length),
      localToGlobal elements ii = some (elements.get ⟨ii, hii⟩) :=
    fun ii hii => List.get?_eq_get hii
  constructor
  · intro ii hii
    rw [constructLocalOp_eq blocks neighbors elements ii ii _ (hloc ii hii)]
    unfold patchOpRow
    by_cases hex : ∃ J ∈ neighbors (elements.get ⟨ii, hii⟩),
        globalToLocal elements J = (ii : Int)
    · refine patchOpRow_foldl_write blocks elements _ _ _ _ ii ?_ hex
      intro J _ hJi
      exact congrArg _ (globalToLocal_get_eq elements J ii hii hJi).symm
    · rw [patchOpRow_foldl_no_write blocks elements _ _ _ ii
        (fun J hJ hJi => hex ⟨J, hJ, hJi⟩)]
      simp
  · intro ii jj hii hjj hne
    rw [constructLocalOp_eq blocks neighbors elements ii jj _ (hloc ii hii)]
    unfold patchOpRow
    by_cases hmem : elements.get ⟨jj, hjj⟩ ∈ neighbors (elements.get ⟨ii, hii⟩)
    · rw [if_pos hmem]
      refine patchOpRow_foldl_write blocks elements _ _ _ _ jj ?_
        ⟨elements.get ⟨jj, hjj⟩, hmem, globalToLocal_nodup elements hnd jj hjj⟩
      intro K _ hKj
      exact congrArg _ (globalToLocal_get_eq elements K jj hjj hKj).symm
    · rw [if_neg hmem]
      rw [patchOpRow_foldl_no_write blocks elements _ _ _ jj ?_]
      · exact if_neg (Ne.symm hne)
      · intro K hK hKj
        exact hmem ((globalToLocal_get_eq elements K jj hjj hKj) ▸ hK)

/-- Witness for C3 on the patch `[0, 1]` of a grid where `neighbors 0 = [1, 2]`
and `neighbors 1 = [0, 3]`: the coupling `(0, 1)` is kept, the couplings to
the outside subdomains `2` and `3` appear nowhere. -/
theorem c3_construct_local_model_blocks_witness :
    constructLocalOp (fun i j => some (10 * i + j))
        (fun i => if i = 0 then [1, 2] else [0, 3]) [0, 1] 0 0 = some 0 ∧
    constructLocalOp (fun i j => some (10 * i + j))
        (fun i => if i = 0 then [1, 2] else [0, 3]) [0, 1] 0 1 = some 1 ∧
    constructLocalOp (fun i j => some (10 * i + j))
        (fun i => if i = 0 then [1, 2] else [0, 3]) [0, 1] 1 0 = some 10 := by
  have h := c3_construct_local_model_blocks (fun i j => some (10 * i + j))
    (fun i => if i = 0 then [1, 2] else [0, 3]) [0, 1] (by decide)
  refine ⟨?_, ?_, ?_⟩
  · have := h.1 0 (by decide)
    simpa using this
  · have := h.2 0 1 (by decide) (by decide) (by decide)
    simpa using this
  · have := h.2 1 0 (by decide) (by decide) (by decide)
    simpa using this

/-- Witness for C4 on the concrete patch `[3, 0, 5]`. -/
theorem c4_patch_mappings_mutually_inverse_witness :
    (∀ i (hi : i < [3, 0, 5].length),
        globalToLocal [3, 0, 5] ([3, 0, 5].get ⟨i, hi⟩) = (i : Int)) ∧
    (∀ I, I ∈ [3, 0, 5] →
        ∃ n : Nat, globalToLocal [3, 0, 5] I = (n : Int) ∧
          localToGlobal [3, 0, 5] n = some I) ∧
    (∀ J, J ∉ [3, 0, 5] → globalToLocal [3, 0, 5] J = -1) :=
  c4_patch_mappings_mutually_inverse [3, 0, 5] (by decide)

theorem mem_patchStep (nb : Nat → List Nat) (nh : List Nat) (a m : Nat) :
    m ∈ patchStep nb nh a ↔
      m ∈ nh ∨ (a = m ∧ a ∉ nh ∧ ((nb a).dedup.filter (· ∈ nh)).length = 2) := by
  unfold patchStep
  by_cases h : a ∉ nh ∧ ((nb a).dedup.filter (· ∈ nh)).length = 2
  · rw [if_pos h]
    simp only [List.mem_append, List.mem_singleton]
    constructor
    · rintro (hm | hm)
      · exact Or.inl hm
      · exact Or.inr ⟨hm.symm, h⟩
    · rintro (hm | ⟨ham, _⟩)
      · exact Or.inl hm
      · exact Or.inr ham.symm
  · rw [if_neg h]
    constructor
    · exact Or.inl
    · rintro (hm | ⟨ham, h1, h2⟩)
      · exact hm
      · exact absurd ⟨h1, h2⟩ h

theorem mem_foldl_patchStep_of_mem (nb : Nat → List Nat) (L : List Nat) :
    ∀ (init : List Nat) (m : Nat), m ∈ init →
      m ∈ L.foldl (patchStep nb) init := by
  induction L with
  | nil => intro init m hm; exact hm
  | cons a L ih =>
    intro init m hm
    exact ih (patchStep nb init a) m ((mem_patchStep nb init a m).mpr (Or.inl hm))

theorem mem_foldl_patchStep_sub (nb : Nat → List Nat) (L : List Nat) :
    ∀ (init : List Nat) (m : Nat), m ∈ L.foldl (patchStep nb) init →
      m ∈ init ∨ m ∈ L := by
  induction L with
  | nil => intro init m hm; exact Or.inl hm
  | cons a L ih =>
    intro init m hm
    rcases ih (patchStep nb init a) m hm with hm | hm
    · rcases (mem_patchStep nb init a m).mp hm with hm | ⟨ham, _⟩
      · exact Or.inl hm
      · exact Or.inr (ham ▸ List.mem_cons_self a L)
    · exact Or.inr (List.mem_cons_of_mem a hm)

theorem mem_foldl_patchStep (nb : Nat → List Nat) (L : List Nat) :
    ∀ (init : List Nat) (m : Nat),
      m ∈ L.foldl (patchStep nb) init ↔
        m ∈ init ∨ ∃ k, ∃ hk : k < L.length,
          L.get ⟨k, hk⟩ = m ∧ m ∉ (L.take k).foldl (patchStep nb) init ∧
          ((nb m).dedup.filter
            (· ∈ (L.take k).foldl (patchStep nb) init)).length = 2 := by
  induction L with
  | nil => intro init m; simp
  | cons a L ih =>
    intro init m
    simp only [List.foldl_cons]
    rw [ih (patchStep nb init a) m, mem_patchStep]
    constructor
    · rintro ((hm | ⟨ham, hnot, hcnt⟩) | ⟨k, hk, hget, hnot, hcnt⟩)
      · exact Or.inl hm
      · refine Or.inr ⟨0, Nat.succ_pos _, ham, ?_, ?_⟩
        · simpa using ham ▸ hnot
        · subst ham; simpa using hcnt
      · refine Or.inr ⟨k + 1, Nat.succ_lt_succ hk, hget, ?_, ?_⟩
        · simpa [List.take_succ_cons, List.foldl_cons] using hnot
        · simpa [List.take_succ_cons, List.foldl_cons] using hcnt
    · rintro (hm | ⟨k, hk, hget, hnot, hcnt⟩)
      · exact Or.inl (Or.inl hm)
      · cases k with
        | zero =>
          have ham : a = m := hget
          subst ham
          refine Or.inl (Or.inr ⟨rfl, ?_, ?_⟩)
          · simpa using hnot
          · simpa using hcnt
        | succ j =>
          refine Or.inr ⟨j, Nat.lt_of_succ_lt_succ hk, hget, ?_, ?_⟩
          · simpa [List.take_succ_cons, List.foldl_cons] using hnot
          · simpa [List.take_succ_cons, List.foldl_cons] using hcnt

/-- **C5.** `construct_element_patches`: the patch of `ss` always contains
`ss`; every member is `ss`, a neighbor of `ss`, or a neighbor of a neighbor
of `ss` (reachable within two hops); and membership is characterized exactly
by the loop: `m` belongs to the patch iff it belongs to the initial set
`{ss} ∪ neighbors(ss)` or, at the moment `m` is examined as the `k`-th
two-hop candidate, `m` is not yet in the set and exactly two of `m`'s
distinct neighbors already lie in the set. -/
theorem c5_element_patch_membership (nb : Nat → List Nat) (ss : Nat) :
    ss ∈ elementPatch nb ss ∧
    (∀ m, m ∈ elementPatch nb ss →
        m = ss ∨ m ∈ nb ss ∨ ∃ nn, nn ∈ nb ss ∧ m ∈ nb nn) ∧
    (∀ m, m ∈ elementPatch nb ss ↔
        m = ss ∨ m ∈ nb ss ∨ ∃ k, ∃ hk : k < (examinedCandidates nb ss).length,
          (examinedCandidates nb ss).get ⟨k, hk⟩ = m ∧
          m ∉ patchStateAt nb ss k ∧
          ((nb m).dedup.filter (· ∈ patchStateAt nb ss k)).length = 2) := by
  refine ⟨?_, ?_, ?_⟩
  · exact mem_foldl_patchStep_of_mem nb _ _ ss (List.mem_cons_self ss (nb ss))
  · intro m hm
    rcases mem_foldl_patchStep_sub nb _ _ m hm with hm | hm
    · rcases List.mem_cons.mp hm with h | h
      · exact Or.inl h
      · exact Or.inr (Or.inl h)
    · rcases List.mem_flatMap.mp hm with ⟨nn, hnn, hmnn⟩
      exact Or.inr (Or.inr ⟨nn, hnn, hmnn⟩)
  · intro m
    rw [show elementPatch nb ss =
        (examinedCandidates nb ss).foldl (patchStep nb) (ss :: nb ss) from rfl]
    rw [mem_foldl_patchStep]
    simp only [List.mem_cons, patchStateAt]
    tauto

/-- Witness for C5 on the 2x2 structured grid (`S = 4`, edge adjacency):
the patch of `0` contains `0`, and the corner subdomain `3` it acquires is
two hops from `0`. -/
theorem c5_element_patch_membership_witness :
    0 ∈ elementPatch
        (fun i => if i = 0 then [1, 2] else if i = 1 then [0, 3]
          else if i = 2 then [0, 3] else [1, 2]) 0 ∧
    ((3 : Nat) = 0 ∨ 3 ∈ [1, 2] ∨
      ∃ nn, nn ∈ [1, 2] ∧ 3 ∈ (fun i : Nat => if i = 0 then [1, 2]
        else if i = 1 then [0, 3] else if i = 2 then [0, 3] else [1, 2]) nn) := by
  have h := c5_element_patch_membership
    (fun i => if i = 0 then [1, 2] else if i = 1 then [0, 3]
      else if i = 2 then [0, 3] else [1, 2]) 0
  refine ⟨h.1, ?_⟩
  have h3 := h.2.1 3 (by decide)
  simpa using h3

theorem mem_sortedUnique (l : List Nat) (x : Nat) :
    x ∈ sortedUnique l ↔ x ∈ l :=
  ((List.perm_insertionSort _ _).mem_iff).trans (List.mem_dedup)

theorem sortedUnique_sorted (l : List Nat) :
    List.Sorted (· ≤ ·) (sortedUnique l) :=
  List.sorted_insertionSort _ _

theorem sortedUnique_nodup (l : List Nat) : (sortedUnique l).Nodup :=
  (List.perm_insertionSort _ _).nodup_iff.mpr (List.nodup_dedup _)

/-- **C8 counterexample.** On a grid with `S = 4` whose adjacency relates
only `0 ↔ 1` (subdomains `2` and `3` have no neighbors), the single node
patch is `(0, [0, 1, 2, 3])`, but its estimator domain is `[0, 1]`: the
patch elements `2` and `3` are *not* contained in the estimator domain, and
the domain is not the element set expanded by the neighbor union
(`[0, 1, 2, 3]`).  `add_element_neighbors` collects only the neighbors of
the elements, not the elements themselves. -/
theorem c8_add_element_neighbors_counterexample :
    constructInnerNodePatches 4 = [(0, [0, 1, 2, 3])] ∧
    addElementNeighbors
        (fun i => if i = 0 then [1] else if i = 1 then [0] else [])
        (constructInnerNodePatches 4) = [(0, [0, 1])] ∧
    (2 : Nat) ∈ [0, 1, 2, 3] ∧ (2 : Nat) ∉ [0, 1] ∧
    sortedUnique ([0, 1, 2, 3] ++ [0, 1, 2, 3].flatMap
        (fun i => if i = 0 then [1] else if i = 1 then [0] else [])) =
      [0, 1, 2, 3] := by
  refine ⟨by decide, by decide, by decide, by decide, by decide⟩

/-- **C8 (amended).** For every grid and every domain entry, the estimator
domain produced by `add_element_neighbors` keeps the key, and its element
list is exactly the union of the neighbor lists of the domain's elements,
deduplicated and sorted ascending; an element of the domain itself is
contained in its estimator domain exactly when it is a neighbor of some
element of the domain (which holds for every node patch under the
structured-grid edge adjacency the module assumes, but is not forced by an
arbitrary adjacency function). -/
theorem c8_add_element_neighbors_amended (nb : Nat → List Nat)
    (domains : List (Nat × List Nat)) :
    ∀ d ∈ addElementNeighbors nb domains, ∃ e ∈ domains,
      d.1 = e.1 ∧
      List.Sorted (· ≤ ·) d.2 ∧ d.2.Nodup ∧
      (∀ x, x ∈ d.2 ↔ ∃ el ∈ e.2, x ∈ nb el) ∧
      (∀ el ∈ e.2, ((∃ el2 ∈ e.2, el ∈ nb el2) ↔ el ∈ d.2)) := by
  intro d hd
  rcases List.mem_map.mp hd with ⟨e, he, hde⟩
  refine ⟨e, he, ?_, ?_, ?_, ?_, ?_⟩
  · rw [← hde]
  · rw [← hde]; exact sortedUnique_sorted _
  · rw [← hde]; exact sortedUnique_nodup _
  · intro x
    rw [← hde]
    simp only [mem_sortedUnique, List.mem_flatMap]
  · intro el _
    rw [← hde]
    simp only [mem_sortedUnique, List.mem_flatMap]

/-- Witness for the amended C8 on the standard 2x2 structured grid, where
each node-patch element is a neighbor of another patch element and hence
belongs to its estimator domain. -/
theorem c8_add_element_neighbors_amended_witness :
    ∃ e ∈ constructInnerNodePatches 4,
      (0, sortedUnique ([0, 1, 2, 3].flatMap
        (fun i => if i = 0 then [1, 2] else if i = 1 then [0, 3]
          else if i = 2 then [0, 3] else [1, 2]))).1 = e.1 ∧
      List.Sorted (· ≤ ·) (0, sortedUnique ([0, 1, 2, 3].flatMap
        (fun i => if i = 0 then [1, 2] else if i = 1 then [0, 3]
          else if i = 2 then [0, 3] else [1, 2]))).2 ∧
      (0, sortedUnique ([0, 1, 2, 3].flatMap
        (fun i => if i = 0 then [1, 2] else if i = 1 then [0, 3]
          else if i = 2 then [0, 3] else [1, 2]))).2.Nodup ∧
      (∀ x, x ∈ (0, sortedUnique ([0, 1, 2, 3].flatMap
        (fun i => if i = 0 then [1, 2] else if i = 1 then [0, 3]
          else if i = 2 then [0, 3] else [1, 2]))).2 ↔
        ∃ el ∈ e.2, x ∈ (fun i : Nat => if i = 0 then [1, 2]
          else if i = 1 then [0, 3]
          else if i = 2 then [0, 3] else [1, 2]) el) ∧
      (∀ el ∈ e.2, ((∃ el2 ∈ e.2, el ∈ (fun i : Nat => if i = 0 then [1, 2]
          else if i = 1 then [0, 3]
          else if i = 2 then [0, 3] else [1, 2]) el2) ↔
        el ∈ (0, sortedUnique ([0, 1, 2, 3].flatMap
        (fun i => if i = 0 then [1, 2] else if i = 1 then [0, 3]
          else if i = 2 then [0, 3] else [1, 2]))).2)) :=
  c8_add_element_neighbors_amended
    (fun i => if i = 0 then [1, 2] else if i = 1 then [0, 3]
      else if i = 2 then [0, 3] else [1, 2])
    (constructInnerNodePatches 4)
    (0, sortedUnique ([0, 1, 2, 3].flatMap
      (fun i => if i = 0 then [1, 2] else if i = 1 then [0, 3]
        else if i = 2 then [0, 3] else [1, 2])))
    (by decide)

theorem patchGlobalElements_eq (elements : List Nat) :
    patchGlobalElements elements = elements := by
  apply List.ext_get
  · simp [patchGlobalElements]
  · intro i h1 h2
    simp only [patchGlobalElements, List.get_map, List.get_range]
    rw [show localToGlobal elements i = some (elements.get ⟨i, h2⟩) from
      List.get?_eq_get h2]
    rfl

theorem filterTerms_eq_filter (strings : List String) (l : List (String × γ)) :
    filterTerms strings l = l.filter (fun t => keepTerm strings t.1) := by
  induction l with
  | nil => rfl
  | cons t rest ih =>
    by_cases h : keepTerm strings t.1
    · simp [filterTerms, h, ih, List.filter_cons]
    · simp [filterTerms, h, ih, List.filter_cons]

/-- **C6.** For every patch whose diagonal block `(i, i)` is present as an
affine combination of named terms, the filtered diagonal block keeps a term
(with its original coefficient, untouched) if and only if the term's name
contains `"volume"` or `"boundary"`, or contains the canonical pair string
`min(I,J)_max(I,J)` for some `J` in the patch, where `I = elements[i]`. -/
theorem c6_remove_irrelevant_coupling (blocks : Nat → Nat → Option (List (String × γ)))
    (elements : List Nat) (i : Nat) (hi : i < elements.length)
    (terms : List (String × γ)) (hblk : blocks i i = some terms) :
    ∃ res, removeIrrelevantCoupling blocks elements i i = some res ∧
      ∀ name (c : γ), ((name, c) ∈ res ↔ (name, c) ∈ terms ∧
        (strContains name "volume" = true ∨ strContains name "boundary" = true ∨
          ∃ J ∈ elements,
            strContains name (pairString (elements.get ⟨i, hi⟩) J) = true)) := by
  unfold removeIrrelevantCoupling
  rw [if_neg (by simp), hblk]
  refine ⟨_, rfl, ?_⟩
  intro name c
  rw [show (localToGlobal elements i).getD 0 = elements.get ⟨i, hi⟩ by
    rw [show localToGlobal elements i = some (elements.get ⟨i, hi⟩) from
      List.get?_eq_get hi]
    rfl]
  rw [filterTerms_eq_filter, List.mem_filter]
  constructor
  · rintro ⟨hmem, hkeep⟩
    refine ⟨hmem, ?_⟩
    simp only [keepTerm, patchGlobalElements_eq, couplingStrings,
      Bool.or_eq_true, List.any_eq_true, List.mem_map] at hkeep
    rcases hkeep with (h | h) | ⟨s, ⟨J, hJ, hs⟩, hcon⟩
    · exact Or.inl h
    · exact Or.inr (Or.inl h)
    · exact Or.inr (Or.inr ⟨J, hJ, hs ▸ hcon⟩)
  · rintro ⟨hmem, hkeep⟩
    refine ⟨hmem, ?_⟩
    simp only [keepTerm, patchGlobalElements_eq, couplingStrings,
      Bool.or_eq_true, List.any_eq_true, List.mem_map]
    rcases hkeep with h | h | ⟨J, hJ, hcon⟩
    · exact Or.inl (Or.inl h)
    · exact Or.inl (Or.inr h)
    · exact Or.inr ⟨pairString (elements.get ⟨i, hi⟩) J, ⟨J, hJ, rfl⟩, hcon⟩

/-- Witness for C6 on the patch `[1, 2]` at local index `0` (`I = 1`): the
`volume` term and the `coupling_1_2` term are retained with their original
coefficients, the `coupling_0_1` term (pointing to subdomain `0`, outside
the patch) is dropped. -/
theorem c6_remove_irrelevant_coupling_witness :
    ∃ res, removeIrrelevantCoupling
        (fun i j => if i = 0 ∧ j = 0
          then some [("volume_part", (5 : Int)), ("coupling_1_2", 7),
            ("coupling_0_1", 9)]
          else none) [1, 2] 0 0 = some res ∧
      ∀ name (c : Int), ((name, c) ∈ res ↔
        (name, c) ∈ [("volume_part", (5 : Int)), ("coupling_1_2", 7),
            ("coupling_0_1", 9)] ∧
        (strContains name "volume" = true ∨ strContains name "boundary" = true ∨
          ∃ J ∈ [1, 2],
            strContains name (pairString (([1, 2] : List Nat).get ⟨0, by decide⟩) J)
              = true)) :=
  c6_remove_irrelevant_coupling
    (fun i j => if i = 0 ∧ j = 0
      then some [("volume_part", (5 : Int)), ("coupling_1_2", 7),
        ("coupling_0_1", 9)]
      else none) [1, 2] 0 (by decide)
    [("volume_part", (5 : Int)), ("coupling_1_2", 7), ("coupling_0_1", 9)]
    (by decide)

theorem mapExcept_ok (f : α → Except Unit β) :
    ∀ (l : List α) (r : List β), mapExcept f l = .ok r →
      List.Forall₂ (fun a b => f a = .ok b) l r := by
  intro l
  induction l with
  | nil =>
    intro r h
    cases h
    exact List.Forall₂.nil
  | cons a as ih =>
    intro r h
    unfold mapExcept at h
    cases hfa : f a with
    | error e => rw [hfa] at h; cases h
    | ok b =>
      rw [hfa] at h
      cases hrest : mapExcept f as with
      | error e =>
        rw [hrest] at h
        cases h
      | ok bs =>
        rw [hrest] at h
        cases h
        exact List.Forall₂.cons hfa (ih bs hrest)

/-- **C7.** Projection commutes with the affine combination: whenever
`project_block_operator` succeeds on a `LincombOperator`, the result is the
affine combination, with the *identical* coefficient functionals, of the
projections of the individual terms; and likewise for `project_block_rhs`. -/
theorem c7_projection_commutes_with_lincomb (projLeaf : L → B → B → P)
    (projIdent : B → P) (projVec projCol : V → B → P)
    (rangeBases sourceBases : List B) (ops : List (BlockOpKind L))
    (coefs : List C) (rhsOps : List (RhsKind V)) (rhsCoefs : List C) :
    (∀ res, projectBlockOperator projLeaf projIdent rangeBases sourceBases
        (.lincomb ops coefs) = .ok res →
      ∃ pops, res = .lincomb pops coefs ∧
        List.Forall₂ (fun o p =>
          projectOneBlockOperator projLeaf projIdent rangeBases sourceBases o
            = .ok p) ops pops) ∧
    (∀ res, projectBlockRhs projVec projCol rangeBases
        (.lincomb rhsOps rhsCoefs) = .ok res →
      ∃ pops, res = .lincomb pops rhsCoefs ∧
        List.Forall₂ (fun o p =>
          projectOneBlockRhs projVec projCol rangeBases o = .ok p)
          rhsOps pops) := by
  constructor
  · intro res h
    have h2 : (mapExcept
        (projectOneBlockOperator projLeaf projIdent rangeBases sourceBases)
        ops).map (fun ps => (TopProjected.lincomb ps coefs : TopProjected P C))
          = .ok res := h
    cases hm : mapExcept
        (projectOneBlockOperator projLeaf projIdent rangeBases sourceBases) ops with
    | error e => rw [hm] at h2; cases h2
    | ok ps =>
      rw [hm] at h2
      cases h2
      exact ⟨ps, rfl, mapExcept_ok _ ops ps hm⟩
  · intro res h
    have h2 : (mapExcept (projectOneBlockRhs projVec projCol rangeBases)
        rhsOps).map (fun ps => (TopRhsProjected.lincomb ps rhsCoefs :
          TopRhsProjected P C)) = .ok res := h
    cases hm : mapExcept (projectOneBlockRhs projVec projCol rangeBases) rhsOps with
    | error e => rw [hm] at h2; cases h2
    | ok ps =>
      rw [hm] at h2
      cases h2
      exact ⟨ps, rfl, mapExcept_ok _ rhsOps ps hm⟩

/-- Witness for C7: a two-term affine combination (an identity and a 1x1
block operator) over one subdomain basis, and a two-term right-hand-side
combination; the projections succeed and keep the coefficients `[10, 20]`
and `[30, 40]`. -/
theorem c7_projection_commutes_with_lincomb_witness :
    (∃ pops, (TopProjected.lincomb [[[some 2]], [[some 6]]] [10, 20] :
          TopProjected Nat Nat) = .lincomb pops [10, 20] ∧
        List.Forall₂ (fun o p =>
          projectOneBlockOperator (fun (o r s : Nat) => o + r + s) (fun b => b)
            [2] [3] o = .ok p)
          [BlockOpKind.identityOp, BlockOpKind.blockOp [[some 1]]] pops) ∧
    (∃ pops, (TopRhsProjected.lincomb [[some 7], [some 14]] [30, 40] :
          TopRhsProjected Nat Nat) = .lincomb pops [30, 40] ∧
        List.Forall₂ (fun o p =>
          projectOneBlockRhs (fun (v b : Nat) => v + b) (fun v b => v * b) [2] o
            = .ok p)
          [RhsKind.vectorOp [5], RhsKind.blockColumn [7]] pops) := by
  have h := c7_projection_commutes_with_lincomb
    (fun (o r s : Nat) => o + r + s) (fun (b : Nat) => b)
    (fun (v b : Nat) => v + b) (fun (v b : Nat) => v * b) [2] [3]
    [BlockOpKind.identityOp, BlockOpKind.blockOp [[some 1]]]
    ([10, 20] : List Nat) [RhsKind.vectorOp [5], RhsKind.blockColumn [7]]
    ([30, 40] : List Nat)
  exact ⟨h.1 (.lincomb [[[some 2]], [[some 6]]] [10, 20]) rfl,
    h.2 (.lincomb [[some 7], [some 14]] [30, 40]) rfl⟩

theorem rebuildRom_frame (build : ReductorState V R M → R)
    (st : ReductorState V R M) :
    (rebuildRom build st).2.localBases = st.localBases ∧
    (rebuildRom build st).2.patchModels = st.patchModels ∧
    (rebuildRom build st).2.patchMappings = st.patchMappings ∧
    (rebuildRom build st).2.estimatorDomains = st.estimatorDomains ∧
    (rebuildRom build st).2.log = st.log :=
  ⟨rfl, rfl, rfl, rfl, rfl⟩

theorem reduceNone_frame (build : ReductorState V R M → R)
    (st : ReductorState V R M) :
    (reduceNone build st).2.localBases = st.localBases ∧
    (reduceNone build st).2.patchModels = st.patchModels ∧
    (reduceNone build st).2.patchMappings = st.patchMappings ∧
    (reduceNone build st).2.estimatorDomains = st.estimatorDomains ∧
    (reduceNone build st).2.log = st.log := by
  unfold reduceNone
  rcases hl : st.lastRom with _ | rom
  · exact rebuildRom_frame build st
  · by_cases h : (basisLength st).sum > st.lastRomDims
    · simp only [if_pos h]; exact rebuildRom_frame build st
    · simp only [if_neg h]
      simp

theorem reduceNone_cached_eq (build : ReductorState V R M → R)
    (st : ReductorState V R M) (rom : R) (hrom : st.lastRom = some rom)
    (hle : ¬(basisLength st).sum > st.lastRomDims) :
    reduceNone build st = (rom, st) := by
  unfold reduceNone
  rw [hrom]
  simp only [if_neg hle]

theorem reduceNone_rebuild_eq (build : ReductorState V R M → R)
    (st : ReductorState V R M)
    (h : st.lastRom = none ∨ (basisLength st).sum > st.lastRomDims) :
    reduceNone build st =
      (build st, { st with lastRom := some (build st),
                           lastRomDims := (basisLength st).sum,
                           reducedLocalBases := st.localBases }) := by
  unfold reduceNone
  rcases h with h | h
  · rw [h]
    rfl
  · rcases hl : st.lastRom with _ | rom
    · rfl
    · simp only [if_pos h]
      rfl

/-- **C2.** `reduce()` with `dims = None`: the cached ROM is returned with
the state untouched exactly when a cached ROM exists and the current total
basis length does not exceed the recorded one; otherwise the ROM is rebuilt
and the new total length and basis snapshot are recorded.  Consequently two
`reduce()` calls with no intervening basis growth return the identical ROM
and the second call performs no rebuild (state unchanged). -/
theorem c2_reduce_cache_rule (build : ReductorState V R M → R)
    (st : ReductorState V R M) :
    (∀ rom, st.lastRom = some rom → ¬(basisLength st).sum > st.lastRomDims →
      reduce build st none = .ok (rom, st)) ∧
    (st.lastRom = none ∨ (basisLength st).sum > st.lastRomDims →
      reduce build st none = .ok (build st,
        { st with lastRom := some (build st),
                  lastRomDims := (basisLength st).sum,
                  reducedLocalBases := st.localBases })) ∧
    (∀ rom st1, reduce build st none = .ok (rom, st1) →
      reduce build st1 none = .ok (rom, st1)) := by
  refine ⟨?_, ?_, ?_⟩
  · intro rom hrom hnot
    simp only [reduce, reduceNone_cached_eq build st rom hrom hnot]
  · intro h
    simp only [reduce, reduceNone_rebuild_eq build st h]
  · intro rom st1 h
    simp only [reduce, Except.ok.injEq] at h ⊢
    by_cases hreb : st.lastRom = none ∨ (basisLength st).sum > st.lastRomDims
    · rw [reduceNone_rebuild_eq build st hreb] at h
      injection h with hrom hst
      subst hrom
      subst hst
      exact reduceNone_cached_eq build _ (build st) rfl
        (by simp only [basisLength]; omega)
    · push_neg at hreb
      rcases hl : st.lastRom with _ | r
      · exact absurd hl hreb.1
      · have hle : ¬(basisLength st).sum > st.lastRomDims := by
          have := hreb.2
          omega
        rw [reduceNone_cached_eq build st r hl hle] at h
        injection h with hrom hst
        subst hrom
        subst hst
        exact reduceNone_cached_eq build st r hl hle

/-- Witness for C2: a fresh reductor (no cached ROM, one basis vector)
rebuilds, and an immediately following call returns the same ROM with the
state unchanged. -/
theorem c2_reduce_cache_rule_witness :
    reduce (fun st => (basisLength st).sum)
        (⟨[[0], []], none, 0, [[], []], [], [], [], []⟩ :
          ReductorState Nat Nat Nat) none
      = .ok (1, ⟨[[0], []], some 1, 1, [[0], []], [], [], [], []⟩) ∧
    reduce (fun st => (basisLength st).sum)
        (⟨[[0], []], some 1, 1, [[0], []], [], [], [], []⟩ :
          ReductorState Nat Nat Nat) none
      = .ok (1, ⟨[[0], []], some 1, 1, [[0], []], [], [], [], []⟩) := by
  have h := c2_reduce_cache_rule (fun st : ReductorState Nat Nat Nat =>
    (basisLength st).sum)
    (⟨[[0], []], none, 0, [[], []], [], [], [], []⟩ : ReductorState Nat Nat Nat)
  have h1 := h.2.1 (Or.inl rfl)
  refine ⟨h1, ?_⟩
  exact h.2.2 1 ⟨[[0], []], some 1, 1, [[0], []], [], [], [], []⟩ h1

/-- **C9.** If the basis-extension primitive fails (near-linear dependence)
on the vector computed by `enrich_locally(I, mu)`, the failure is not
propagated: `enrich_locally` still returns the patch solution, the
diagnostic `"Extension failed"` is emitted, and the local bases — in
particular subdomain `I`'s basis length — are unchanged for that round. -/
theorem c9_extension_failure_absorbed (extendBasis : List V → V → Option (List V))
    (build : ReductorState V R M → R)
    (solvePatch : ReductorState V R M → Nat → μ → W) (blockOf : W → Int → V)
    (I : Nat) (mu : μ) (st : ReductorState V R M)
    (hfail : extendBasis ((enrichPre build st).localBases.getD I [])
      (enrichVector build solvePatch blockOf I mu st) = none) :
    (enrichLocally extendBasis build solvePatch blockOf I mu st).1
      = solvePatch (enrichPre build st) I mu ∧
    (enrichLocally extendBasis build solvePatch blockOf I mu st).2.localBases
      = st.localBases ∧
    (enrichLocally extendBasis build solvePatch blockOf I mu st).2.log
      = st.log ++ ["Extension failed"] := by
  have hpre : (enrichPre build st).localBases = st.localBases := by
    unfold enrichPre
    by_cases h : st.lastRom.isNone
    · rw [if_pos h]; exact (reduceNone_frame build st).1
    · rw [if_neg h]
  have hlog : (enrichPre build st).log = st.log := by
    unfold enrichPre
    by_cases h : st.lastRom.isNone
    · rw [if_pos h]; exact (reduceNone_frame build st).2.2.2.2
    · rw [if_neg h]
  refine ⟨rfl, ?_, ?_⟩
  · simp only [enrichLocally, addLocalSolutions, hfail]
    exact hpre
  · simp only [enrichLocally, addLocalSolutions, hfail]
    rw [hlog]

/-- Witness for C9: an always-failing extension primitive on a one-subdomain
state leaves the basis untouched and logs the diagnostic. -/
theorem c9_extension_failure_absorbed_witness :
    (enrichLocally (fun _ _ => (none : Option (List Nat)))
        (fun _ => 0) (fun _ _ _ => (0 : Nat)) (fun w _ => w) 0 (0 : Nat)
        (⟨[[5]], some 0, 1, [[5]], [0], [[0]], [], []⟩ :
          ReductorState Nat Nat Nat)).1 = 0 ∧
    (enrichLocally (fun _ _ => (none : Option (List Nat)))
        (fun _ => 0) (fun _ _ _ => (0 : Nat)) (fun w _ => w) 0 (0 : Nat)
        (⟨[[5]], some 0, 1, [[5]], [0], [[0]], [], []⟩ :
          ReductorState Nat Nat Nat)).2.localBases = [[5]] ∧
    (enrichLocally (fun _ _ => (none : Option (List Nat)))
        (fun _ => 0) (fun _ _ _ => (0 : Nat)) (fun w _ => w) 0 (0 : Nat)
        (⟨[[5]], some 0, 1, [[5]], [0], [[0]], [], []⟩ :
          ReductorState Nat Nat Nat)).2.log = [] ++ ["Extension failed"] :=
  c9_extension_failure_absorbed (fun _ _ => (none : Option (List Nat)))
    (fun _ => 0) (fun _ _ _ => (0 : Nat)) (fun w _ => w) 0 (0 : Nat)
    (⟨[[5]], some 0, 1, [[5]], [0], [[0]], [], []⟩ : ReductorState Nat Nat Nat)
    rfl

/-- **C10.** `enrich_locally(I, mu)` mutates at most `local_bases[I]` and —
only when no ROM existed before the call — the ROM cache: for every `J ≠ I`
the basis of `J` is unchanged, the number of subdomains is unchanged, the
precomputed patch models, patch mappings and estimator domains are
unchanged, and when a cached ROM existed, the cache (`_last_rom`,
`_last_rom_dims`) and the reduced-basis snapshot are unchanged too. -/
theorem c10_enrich_locally_frame (extendBasis : List V → V → Option (List V))
    (build : ReductorState V R M → R)
    (solvePatch : ReductorState V R M → Nat → μ → W) (blockOf : W → Int → V)
    (I : Nat) (mu : μ) (st : ReductorState V R M) :
    (∀ J, J ≠ I →
      (enrichLocally extendBasis build solvePatch blockOf I mu st).2.localBases.get? J
        = st.localBases.get? J) ∧
    (enrichLocally extendBasis build solvePatch blockOf I mu st).2.localBases.length
      = st.localBases.length ∧
    (enrichLocally extendBasis build solvePatch blockOf I mu st).2.patchModels
      = st.patchModels ∧
    (enrichLocally extendBasis build solvePatch blockOf I mu st).2.patchMappings
      = st.patchMappings ∧
    (enrichLocally extendBasis build solvePatch blockOf I mu st).2.estimatorDomains
      = st.estimatorDomains ∧
    (st.lastRom ≠ none →
      (enrichLocally extendBasis build solvePatch blockOf I mu st).2.lastRom
          = st.lastRom ∧
      (enrichLocally extendBasis build solvePatch blockOf I mu st).2.lastRomDims
          = st.lastRomDims ∧
      (enrichLocally extendBasis build solvePatch blockOf I mu st).2.reducedLocalBases
          = st.reducedLocalBases) := by
  have hpre : enrichPre build st = st ∨ st.lastRom = none := by
    unfold enrichPre
    by_cases h : st.lastRom.isNone
    · exact Or.inr (Option.isNone_iff_eq_none.mp h)
    · rw [if_neg h]; exact Or.inl rfl
  have hpre_frame : (enrichPre build st).localBases = st.localBases ∧
      (enrichPre build st).patchModels = st.patchModels ∧
      (enrichPre build st).patchMappings = st.patchMappings ∧
      (enrichPre build st).estimatorDomains = st.estimatorDomains := by
    unfold enrichPre
    by_cases h : st.lastRom.isNone
    · rw [if_pos h]
      exact ⟨(reduceNone_frame build st).1, (reduceNone_frame build st).2.1,
        (reduceNone_frame build st).2.2.1, (reduceNone_frame build st).2.2.2.1⟩
    · rw [if_neg h]; exact ⟨rfl, rfl, rfl, rfl⟩
  set u := enrichVector build solvePatch blockOf I mu st with hu
  have hcases : ((enrichLocally extendBasis build solvePatch blockOf I mu st).2.localBases
        = (enrichPre build st).localBases.set I
            ((extendBasis ((enrichPre build st).localBases.getD I []) u).getD [])
      ∨ (enrichLocally extendBasis build solvePatch blockOf I mu st).2.localBases
        = (enrichPre build st).localBases) ∧
      (enrichLocally extendBasis build solvePatch blockOf I mu st).2.patchModels
        = (enrichPre build st).patchModels ∧
      (enrichLocally extendBasis build solvePatch blockOf I mu st).2.patchMappings
        = (enrichPre build st).patchMappings ∧
      (enrichLocally extendBasis build solvePatch blockOf I mu st).2.estimatorDomains
        = (enrichPre build st).estimatorDomains ∧
      (enrichLocally extendBasis build solvePatch blockOf I mu st).2.lastRom
        = (enrichPre build st).lastRom ∧
      (enrichLocally extendBasis build solvePatch blockOf I mu st).2.lastRomDims
        = (enrichPre build st).lastRomDims ∧
      (enrichLocally extendBasis build solvePatch blockOf I mu st).2.reducedLocalBases
        = (enrichPre build st).reducedLocalBases := by
    simp only [enrichLocally, addLocalSolutions]
    cases hext : extendBasis ((enrichPre build st).localBases.getD I []) u with
    | none => exact ⟨Or.inr rfl, rfl, rfl, rfl, rfl, rfl, rfl⟩
    | some nb => exact ⟨Or.inl rfl, rfl, rfl, rfl, rfl, rfl, rfl⟩
  refine ⟨?_, ?_, ?_, ?_, ?_, ?_⟩
  · intro J hJ
    rcases hcases.1 with h | h
    · rw [h, List.get?_set_ne _ _ (fun hIJ => hJ hIJ.symm), hpre_frame.1]
    · rw [h, hpre_frame.1]
  · rcases hcases.1 with h | h
    · rw [h, List.length_set, hpre_frame.1]
    · rw [h, hpre_frame.1]
  · rw [hcases.2.1, hpre_frame.2.1]
  · rw [hcases.2.2.1, hpre_frame.2.2.1]
  · rw [hcases.2.2.2.1, hpre_frame.2.2.2]
  · intro hsome
    have hp : enrichPre build st = st := by
      rcases hpre with h | h
      · exact h
      · exact absurd h hsome
    exact ⟨by rw [hcases.2.2.2.2.1, hp], by rw [hcases.2.2.2.2.2.1, hp],
      by rw [hcases.2.2.2.2.2.2, hp]⟩

/-- Witness for C10: enriching subdomain `0` of a two-subdomain state with a
cached ROM leaves subdomain `1`'s basis, the precomputed structures and the
ROM cache unchanged. -/
theorem c10_enrich_locally_frame_witness :
    (enrichLocally (fun b _ => some (b ++ [9])) (fun _ => 0)
        (fun _ _ _ => (0 : Nat)) (fun w _ => w) 0 (0 : Nat)
        (⟨[[5], [6]], some 0, 2, [[5], [6]], [0, 1], [[0], [1]], [(0, [0, 1])],
          []⟩ : ReductorState Nat Nat Nat)).2.localBases.get? 1
      = some [6] ∧
    (enrichLocally (fun b _ => some (b ++ [9])) (fun _ => 0)
        (fun _ _ _ => (0 : Nat)) (fun w _ => w) 0 (0 : Nat)
        (⟨[[5], [6]], some 0, 2, [[5], [6]], [0, 1], [[0], [1]], [(0, [0, 1])],
          []⟩ : ReductorState Nat Nat Nat)).2.lastRom = some 0 := by
  have h := c10_enrich_locally_frame (fun (b : List Nat) (_ : Nat) => some (b ++ [9]))
    (fun _ => (0 : Nat)) (fun _ _ _ => (0 : Nat)) (fun (w : Nat) _ => w) 0 (0 : Nat)
    (⟨[[5], [6]], some 0, 2, [[5], [6]], [0, 1], [[0], [1]], [(0, [0, 1])],
      []⟩ : ReductorState Nat Nat Nat)
  refine ⟨?_, ?_⟩
  · rw [h.1 1 (by decide)]
    rfl
  · exact (h.2.2.2.2.2 (by simp)).1

theorem distStep_foldl (ind : ℝ) (l : List Nat) :
    ∀ (ests : Nat → ℝ) (x : Nat),
      (l.foldl (distStep ind) ests) x = ests x + (l.count x : ℝ) * ind ^ 2 := by
  induction l with
  | nil => intro ests x; simp
  | cons sd rest ih =>
    intro ests x
    rw [List.foldl_cons, ih]
    by_cases h : x = sd
    · subst h
      simp [distStep, List.count_cons]
      ring
    · simp [distStep, h, List.count_cons, Ne.symm h]

theorem distribute_outer_foldl (eds : List (Nat × List Nat)) :
    ∀ (pairs : List (Nat × ℝ)) (ests : Nat → ℝ) (x : Nat),
      (pairs.foldl
          (fun e p => ((eds.lookup p.1).getD []).foldl (distStep p.2) e) ests) x
        = ests x + (pairs.map
            (fun p => ((((eds.lookup p.1).getD []).count x : ℕ) : ℝ) * p.2 ^ 2)).sum := by
  intro pairs
  induction pairs with
  | nil => intro ests x; simp
  | cons p rest ih =>
    intro ests x
    rw [List.foldl_cons, ih, distStep_foldl]
    simp only [List.map_cons, List.sum_cons]
    ring

theorem zip_lookup_map (x : Nat) :
    ∀ (eds : List (Nat × List Nat)) (inds : List ℝ),
      (eds.map Prod.fst).Nodup →
      (((eds.map Prod.fst).zip inds).map
          (fun p => ((((eds.lookup p.1).getD []).count x : ℕ) : ℝ) * p.2 ^ 2)).sum
        = ((eds.zip inds).map
            (fun p => ((p.1.2.count x : ℕ) : ℝ) * p.2 ^ 2)).sum := by
  intro eds
  induction eds with
  | nil => intro inds _; simp
  | cons e rest ih =>
    intro inds hnd
    obtain ⟨k, v⟩ := e
    cases inds with
    | nil => simp
    | cons i irest =>
      simp only [List.map_cons, List.zip_cons_cons, List.sum_cons]
      have hk : k ∉ rest.map Prod.fst := by
        have := List.nodup_cons.mp hnd
        simpa using this.1
      have hhead : (((k, v) :: rest).lookup k).getD [] = v := by
        simp [List.lookup_cons]
      have htail : ((rest.map Prod.fst).zip irest).map
            (fun p => (((((k, v) :: rest).lookup p.1).getD []).count x : ℝ) * p.2 ^ 2)
          = ((rest.map Prod.fst).zip irest).map
            (fun p => (((rest.lookup p.1).getD []).count x : ℝ) * p.2 ^ 2) := by
        apply List.map_congr_left
        intro p hp
        have hp1 : p.1 ∈ rest.map Prod.fst := (List.mem_zip hp).1
        have hne : (p.1 == k) = false := by
          apply beq_false_of_ne
          intro h
          exact hk (h ▸ hp1)
        simp [List.lookup_cons, hne]
      rw [hhead, htail, ih irest (List.nodup_cons.mp hnd).2]

/-- **C1 (amended).** `estimate_error` returns the triple
`(overall Euclidean norm of the indicators, the raw per-domain indicator
list, s)` where the third component `s` is a *scalar*: the squared indicator
of each estimator domain is added onto every subdomain contained in that
domain (with multiplicity), the resulting per-subdomain array is then summed
over all `S` subdomains, and a single global square root of that total is
returned — not a per-subdomain vector of square roots. -/
theorem c1_estimate_error_amended (resNorm : Nat → Int → ℝ) (S : Nat)
    (eds inner : List (Nat × List Nat))
    (hkeys : (eds.map Prod.fst).Sorted (· < ·))
    (hbound : ∀ e ∈ eds, ∀ sd ∈ e.2, sd < S) :
    (estimateError resNorm S eds inner).1
        = l2norm (iplIndicators resNorm eds inner) ∧
    (estimateError resNorm S eds inner).2.1 = iplIndicators resNorm eds inner ∧
    (estimateError resNorm S eds inner).2.2
        = Real.sqrt (((List.range S).map
            (distributeEsts eds (iplIndicators resNorm eds inner))).sum) ∧
    (∀ sd, distributeEsts eds (iplIndicators resNorm eds inner) sd
        = ((eds.zip (iplIndicators resNorm eds inner)).map
            (fun p => ((p.1.2.count sd : ℕ) : ℝ) * p.2 ^ 2)).sum) := by
  refine ⟨rfl, rfl, rfl, ?_⟩
  intro sd
  unfold distributeEsts
  rw [List.Sorted.insertionSort_eq (List.Sorted.le_of_lt hkeys)]
  rw [distribute_outer_foldl]
  rw [zip_lookup_map sd eds _ hkeys.nodup]
  simp

/-- Witness for the amended C1 at the concrete two-domain instance used in
the counterexample. -/
theorem c1_estimate_error_amended_witness :
    (estimateError (fun d _ => if d = 0 then (3 : ℝ) else 4) 2
        [(0, [0]), (1, [1])] [(0, [0]), (1, [1])]).1
        = l2norm (iplIndicators (fun d _ => if d = 0 then (3 : ℝ) else 4)
            [(0, [0]), (1, [1])] [(0, [0]), (1, [1])]) ∧
    (estimateError (fun d _ => if d = 0 then (3 : ℝ) else 4) 2
        [(0, [0]), (1, [1])] [(0, [0]), (1, [1])]).2.1
        = iplIndicators (fun d _ => if d = 0 then (3 : ℝ) else 4)
            [(0, [0]), (1, [1])] [(0, [0]), (1, [1])] ∧
    (estimateError (fun d _ => if d = 0 then (3 : ℝ) else 4) 2
        [(0, [0]), (1, [1])] [(0, [0]), (1, [1])]).2.2
        = Real.sqrt (((List.range 2).map
            (distributeEsts [(0, [0]), (1, [1])]
              (iplIndicators (fun d _ => if d = 0 then (3 : ℝ) else 4)
                [(0, [0]), (1, [1])] [(0, [0]), (1, [1])]))).sum) ∧
    (∀ sd, distributeEsts [(0, [0]), (1, [1])]
        (iplIndicators (fun d _ => if d = 0 then (3 : ℝ) else 4)
          [(0, [0]), (1, [1])] [(0, [0]), (1, [1])]) sd
        = (([(0, [0]), (1, [1])].zip
              (iplIndicators (fun d _ => if d = 0 then (3 : ℝ) else 4)
                [(0, [0]), (1, [1])] [(0, [0]), (1, [1])])).map
            (fun p => ((p.1.2.count sd : ℕ) : ℝ) * p.2 ^ 2)).sum) :=
  c1_estimate_error_amended (fun d _ => if d = 0 then (3 : ℝ) else 4) 2
    [(0, [0]), (1, [1])] [(0, [0]), (1, [1])]
    (by simp [List.Sorted]) (by decide)

/-- **C1 counterexample.** On two estimator domains `{0}` and `{1}` with
residual norms `3` and `4`, the indicators are `[3, 4]`, the accumulated
squared contributions are `9` on subdomain `0` and `16` on subdomain `1`,
and the third returned component is the single scalar
`sqrt(9 + 16) = 5` — not the per-subdomain vector `[3, 4]` the claim
describes (`5 ≠ 3`). -/
theorem c1_estimate_error_counterexample :
    (estimateError (fun d _ => if d = 0 then (3 : ℝ) else 4) 2
        [(0, [0]), (1, [1])] [(0, [0]), (1, [1])]).2.2 = 5 ∧
    Real.sqrt (distributeEsts [(0, [0]), (1, [1])]
        (iplIndicators (fun d _ => if d = 0 then (3 : ℝ) else 4)
          [(0, [0]), (1, [1])] [(0, [0]), (1, [1])]) 0) = 3 ∧
    Real.sqrt (distributeEsts [(0, [0]), (1, [1])]
        (iplIndicators (fun d _ => if d = 0 then (3 : ℝ) else 4)
          [(0, [0]), (1, [1])] [(0, [0]), (1, [1])]) 1) = 4 ∧
    ((5 : ℝ) ≠ 3 ∧ (5 : ℝ) ≠ 4) := by
  have h0 : iplIndicator (fun d _ => if d = 0 then (3 : ℝ) else 4)
      [(0, [0]), (1, [1])] [(0, [0]), (1, [1])] 0 = 3 := by
    simp [iplIndicator, l2norm, globalToLocal, globalToLocalAux]
  have h1 : iplIndicator (fun d _ => if d = 0 then (3 : ℝ) else 4)
      [(0, [0]), (1, [1])] [(0, [0]), (1, [1])] 1 = 4 := by
    simp [iplIndicator, l2norm, globalToLocal, globalToLocalAux]
  have hinds : iplIndicators (fun d _ => if d = 0 then (3 : ℝ) else 4)
      [(0, [0]), (1, [1])] [(0, [0]), (1, [1])]
      = [3, 4] := by
    rw [show iplIndicators (fun d _ => if d = 0 then (3 : ℝ) else 4)
        [(0, [0]), (1, [1])] [(0, [0]), (1, [1])]
        = [iplIndicator (fun d _ => if d = 0 then (3 : ℝ) else 4)
            [(0, [0]), (1, [1])] [(0, [0]), (1, [1])] 0,
           iplIndicator (fun d _ => if d = 0 then (3 : ℝ) else 4)
            [(0, [0]), (1, [1])] [(0, [0]), (1, [1])] 1] from by
      simp [iplIndicators, List.range_succ]]
    rw [h0, h1]
  have hd0 : distributeEsts [(0, [0]), (1, [1])] [(3 : ℝ), 4] 0 = 9 := by
    simp [distributeEsts, List.insertionSort, List.orderedInsert,
      List.lookup, distStep]
    norm_num
  have hd1 : distributeEsts [(0, [0]), (1, [1])] [(3 : ℝ), 4] 1 = 16 := by
    simp [distributeEsts, List.insertionSort, List.orderedInsert,
      List.lookup, distStep]
    norm_num
  refine ⟨?_, ?_, ?_, by norm_num, by norm_num⟩
  · show Real.sqrt (((List.range 2).map
        (distributeEsts [(0, [0]), (1, [1])]
          (iplIndicators (fun d _ => if d = 0 then (3 : ℝ) else 4)
            [(0, [0]), (1, [1])] [(0, [0]), (1, [1])]))).sum) = 5
    rw [hinds]
    rw [show (List.range 2) = [0, 1] from by decide]
    simp only [List.map_cons, List.map_nil, List.sum_cons, List.sum_nil]
    rw [hd0, hd1]
    rw [show (9 : ℝ) + (16 + 0) = 5 ^ 2 by norm_num]
    exact Real.sqrt_sq (by norm_num)
  · rw [hinds, hd0]
    rw [show (9 : ℝ) = 3 ^ 2 by norm_num]
    exact Real.sqrt_sq (by norm_num)
  · rw [hinds, hd1]
    rw [show (16 : ℝ) = 4 ^ 2 by norm_num]
    exact Real.sqrt_sq (by norm_num)

end IPL3DG
